import Mathlib

/-!
Verification of the merge core of `sw2almond.py` (SuperWhisper → Almond
vocabulary migration tool).

The development shallowly embeds the pure core of the script:
`load_superwhisper_settings` (its vocabulary and replacement halves),
`classify_replacement`, `build_almond_entries` and `merge_dictionaries`.
Python strings are modelled as Lean `String`, with the string methods
used by the script (`lower`, `strip`, `startswith`, `in`, `sorted`)
implemented over the underlying character list so that everything is
executable by the kernel.  Python dicts (which preserve insertion order,
update keys in place, and append fresh keys at the end) are modelled as
association lists with `lookupKey` / `setKey`.
-/

/-! ## String primitives (Python `str` methods) -/

/-- Python `s.lower()`: lower-case every character (basic latin, as `Char.toLower`). -/
def pyLower (s : String) : String := ⟨s.data.map Char.toLower⟩

/-- Characters stripped from both ends, mirroring Python `str.strip()`. -/
def stripChars (l : List Char) : List Char :=
  ((l.dropWhile Char.isWhitespace).reverse.dropWhile Char.isWhitespace).reverse

/-- Python `s.strip()`: remove leading and trailing whitespace. -/
def pyStrip (s : String) : String := ⟨stripChars s.data⟩

/-- Does the character list `l` begin with the character list `pat`? -/
def beginsWith : List Char → List Char → Bool
  | _, [] => true
  | [], _ :: _ => false
  | c :: cs, p :: ps => c == p && beginsWith cs ps

/-- Python `s.startswith(pat)`. -/
def pyStartsWith (s pat : String) : Bool := beginsWith s.data pat.data

/-- Does `pat` occur as a contiguous run inside `l`? -/
def hasSub (pat : List Char) : List Char → Bool
  | [] => beginsWith [] pat
  | c :: cs => beginsWith (c :: cs) pat || hasSub pat cs

/-- Python `pat in s` (substring containment). -/
def pyContains (s pat : String) : Bool := hasSub pat.data s.data

/-- Python's ordering on strings: lexicographic on code points. -/
def pyLe (s t : String) : Prop := s.data ≤ t.data

instance : DecidableRel pyLe :=
  fun s t => inferInstanceAs (Decidable (s.data ≤ t.data))

instance : IsTotal String pyLe := ⟨fun s t => le_total s.data t.data⟩

instance : IsTrans String pyLe := ⟨fun _ _ _ h h2 => le_trans h h2⟩

theorem pyLe_refl (s : String) : pyLe s s := le_refl s.data

theorem pyLe_antisymm {s t : String} (h1 : pyLe s t) (h2 : pyLe t s) : s = t := by
  cases s
  cases t
  exact congrArg String.mk (le_antisymm h1 h2)

/-- Python `sorted(l)` for a list of strings.  (All uses in the script sort the
elements of a set, i.e. a duplicate-free list, where every correct sort agrees
with Python's stable sort.) -/
def pySorted (l : List String) : List String := List.insertionSort pyLe l

/-! ## Data model -/

/-- One Almond dictionary entry: `{canonical, isAutoAdded, variants}`. -/
structure DictEntry where
  canonical : String
  isAutoAdded : Bool
  variants : List String
deriving DecidableEq

/-- One SuperWhisper replacement rule `{original, with}` (the `id` field is
ignored by the migration logic; Python's `with` field is called `withText`
here because `with` is a Lean keyword). -/
structure ReplacementRule where
  original : String
  withText : String
deriving DecidableEq

/-- Result of `classify_replacement`: the Python strings `'spelling'`,
`'macro'` (constructor `macroExp`) and `'command'`. -/
inductive Category where
  | spelling
  | macroExp
  | command
deriving DecidableEq

/-- An Almond dictionary entries mapping, modelled as an insertion-ordered
association list (Python `dict`). -/
abbrev EntryMap := List (String × DictEntry)

/-- The Almond dictionary document `{entries, version}`. -/
structure Dictionary where
  entries : EntryMap
  version : Nat
deriving DecidableEq

/-- The stats record built by `merge_dictionaries`. -/
structure MergeStats where
  added : Nat
  merged_variants : Nat
  skipped : Nat
deriving DecidableEq

/-- Python `key in d` / `d[key]` on an insertion-ordered dict. -/
def lookupKey (k : String) : EntryMap → Option DictEntry
  | [] => none
  | (k1, e) :: rest => if k1 = k then some e else lookupKey k rest

/-- Python `d[key] = e`: updates the entry in place if the key is present,
otherwise appends the fresh key at the end. -/
def setKey (k : String) (e : DictEntry) : EntryMap → EntryMap
  | [] => [(k, e)]
  | (k1, e1) :: rest => if k1 = k then (k, e) :: rest else (k1, e1) :: setKey k e rest

/-! ## SourceLoader (`load_superwhisper_settings`) -/

/-- Embeds the vocabulary half of `load_superwhisper_settings`: raw terms from
every successfully parsed document are accumulated into a Python `set` and the
function returns `sorted(vocabulary)`.  Each document is modelled by its
`vocabulary` list; `docs` lists the documents in scan order (current settings
first, then the backups). -/
def load_vocabulary (docs : List (List String)) : List String :=
  pySorted docs.flatten.dedup

/-- One step of the replacement-loading loops: the rule is kept iff both raw
fields are non-empty (`if key[0] and key[1]`, Python truthiness on the
untrimmed strings), and deduplication is by the `(original, with)` pair with
the first occurrence winning (`replacements[key] = r` on the primary document
and `replacements.setdefault(key, r)` on backups both leave the position and,
for the id-less rules modelled here, the value of an existing key unchanged). -/
def keepRule (acc : List ReplacementRule) (r : ReplacementRule) : List ReplacementRule :=
  if r.original ≠ "" ∧ r.withText ≠ "" then
    if r ∈ acc then acc else acc ++ [r]
  else acc

/-- Embeds the replacements half of `load_superwhisper_settings`:
`list(replacements.values())` in insertion order after scanning all documents. -/
def load_replacements (docs : List (List ReplacementRule)) : List ReplacementRule :=
  docs.foldl (fun acc doc => doc.foldl keepRule acc) []

/-! ## Classifier (`classify_replacement`) -/

/-- The fixed trigger-phrase list `macro_triggers` of `classify_replacement`. -/
def macroTriggers : List String :=
  ["input my", "my email", "my address", "my phone", "my zip", "my name", "deployment on"]

/-- Embeds `classify_replacement`: slash commands first, then personal-info
triggers on the lower-cased (untrimmed) `original`, then URL shapes in the
untrimmed `with`, and `spelling` as the default. -/
def classify_replacement (r : ReplacementRule) : Category :=
  let original := pyLower r.original
  let with_text := r.withText
  if pyStartsWith with_text "/" then Category.command
  else if macroTriggers.any (fun t => pyContains original t) then Category.macroExp
  else if pyContains with_text "://" || pyStartsWith with_text "http" then Category.macroExp
  else Category.spelling

/-! ## EntryBuilder (`build_almond_entries`) -/

/-- One iteration of the vocabulary loop of `build_almond_entries`. -/
def addVocabTerm (entries : EntryMap) (term : String) : EntryMap :=
  let key := pyStrip (pyLower term)
  if key = "" then entries
  else
    match lookupKey key entries with
    | some _ => entries
    | none => setKey key ⟨term, false, []⟩ entries

/-- One iteration of the replacements loop of `build_almond_entries`. -/
def addReplacementRule (include_macros : Bool) (entries : EntryMap)
    (r : ReplacementRule) : EntryMap :=
  let category := classify_replacement r
  let original := pyStrip r.original
  let with_text := pyStrip r.withText
  if category = Category.command then entries
  else if category = Category.macroExp ∧ include_macros = false then entries
  else
    let key := pyLower with_text
    if key = "" then entries
    else
      match lookupKey key entries with
      | some e =>
          if original ≠ "" ∧ original ∉ e.variants then
            setKey key { e with variants := e.variants ++ [original] } entries
          else entries
      | none => setKey key ⟨with_text, false, if original ≠ "" then [original] else []⟩ entries

/-- Embeds `build_almond_entries`: the vocabulary loop runs to completion
before the replacements loop starts. -/
def build_almond_entries (vocabulary : List String) (replacements : List ReplacementRule)
    (include_macros : Bool) : EntryMap :=
  replacements.foldl (addReplacementRule include_macros) (vocabulary.foldl addVocabTerm [])

/-! ## Merger (`merge_dictionaries`) -/

/-- One iteration of the loop of `merge_dictionaries`.  `set(...)` difference
and union are rendered over duplicate-free lists: `added_variants` is the list
of distinct candidate variants missing from the existing entry, and the merged
variant list is `sorted(existing_variants | new_variants)`, i.e. the distinct
strings of both lists in ascending order. -/
def mergeStep (acc : EntryMap × MergeStats) (kv : String × DictEntry) :
    EntryMap × MergeStats :=
  match lookupKey kv.1 acc.1 with
  | some ex =>
      let added_variants := kv.2.variants.dedup.filter fun v => !decide (v ∈ ex.variants)
      if added_variants = [] then
        (acc.1, { acc.2 with skipped := acc.2.skipped + 1 })
      else
        (setKey kv.1 { ex with variants := pySorted (ex.variants ++ kv.2.variants).dedup } acc.1,
         { acc.2 with merged_variants := acc.2.merged_variants + added_variants.length })
  | none => (setKey kv.1 kv.2 acc.1, { acc.2 with added := acc.2.added + 1 })

/-- Embeds `merge_dictionaries`: folds the candidate entries (in insertion
order) into a copy of the existing entries, and always stamps `version: 1`. -/
def merge_dictionaries (existing : Dictionary) (new_entries : EntryMap) :
    Dictionary × MergeStats :=
  let res := new_entries.foldl mergeStep (existing.entries, ⟨0, 0, 0⟩)
  (⟨res.1, 1⟩, res.2)

/-! ## Derived classification of candidate keys (used to state merge stats) -/

/-- The candidate key is absent from the entry map `E`. -/
def isNewKey (E : EntryMap) (kv : String × DictEntry) : Bool :=
  (lookupKey kv.1 E).isNone

/-- Number of distinct variant strings of the candidate entry that are missing
from the entry `E` holds under the candidate's key (0 if the key is absent). -/
def newVariantCount (E : EntryMap) (kv : String × DictEntry) : Nat :=
  match lookupKey kv.1 E with
  | some ex => (kv.2.variants.dedup.filter fun v => !decide (v ∈ ex.variants)).length
  | none => 0

/-- The candidate key is present in `E` and proposes no new variant string. -/
def isSkippedKey (E : EntryMap) (kv : String × DictEntry) : Bool :=
  (lookupKey kv.1 E).isSome && newVariantCount E kv == 0

/-- The candidate key is present in `E` and proposes at least one new variant
string. -/
def isMergedKey (E : EntryMap) (kv : String × DictEntry) : Bool :=
  (lookupKey kv.1 E).isSome && newVariantCount E kv != 0

/-! ## Association-list (Python dict) lemmas -/

@[simp] theorem lookupKey_nil (k : String) : lookupKey k [] = none := rfl

@[simp] theorem lookupKey_cons (k k1 : String) (e : DictEntry) (rest : EntryMap) :
    lookupKey k ((k1, e) :: rest) = if k1 = k then some e else lookupKey k rest := rfl

@[simp] theorem setKey_nil (k : String) (e : DictEntry) : setKey k e [] = [(k, e)] := rfl

@[simp] theorem setKey_cons (k k1 : String) (e e1 : DictEntry) (rest : EntryMap) :
    setKey k e ((k1, e1) :: rest) =
      if k1 = k then (k, e) :: rest else (k1, e1) :: setKey k e rest := rfl

theorem lookupKey_setKey (k k1 : String) (e : DictEntry) (m : EntryMap) :
    lookupKey k1 (setKey k e m) = if k = k1 then some e else lookupKey k1 m := by
  induction m with
  | nil =>
      by_cases h1 : k = k1 <;> simp [h1]
  | cons kv rest ih =>
      rcases kv with ⟨k2, e2⟩
      by_cases h2 : k2 = k
      · subst h2
        by_cases h1 : k2 = k1
        · subst h1
          simp
        · simp [h1]
      · rw [setKey_cons, if_neg h2]
        by_cases h1 : k2 = k1
        · subst h1
          have hk : ¬ k = k2 := fun hh => h2 hh.symm
          simp [hk]
        · rw [lookupKey_cons, if_neg h1, lookupKey_cons, if_neg h1, ih]

theorem lookupKey_eq_none_iff (k : String) (m : EntryMap) :
    lookupKey k m = none ↔ k ∉ m.map Prod.fst := by
  induction m with
  | nil => simp
  | cons kv rest ih =>
      rcases kv with ⟨k2, e2⟩
      by_cases h : k2 = k
      · subst h
        simp
      · rw [lookupKey_cons, if_neg h]
        simp only [List.map_cons, List.mem_cons, ih]
        constructor
        · intro hn hc
          rcases hc with hc | hc
          · exact h hc.symm
          · exact hn hc
        · intro hn hc
          exact hn (Or.inr hc)

theorem lookupKey_isSome_iff (k : String) (m : EntryMap) :
    (lookupKey k m).isSome = true ↔ k ∈ m.map Prod.fst := by
  rw [← Decidable.not_iff_not, ← lookupKey_eq_none_iff]
  cases lookupKey k m <;> simp

theorem lookupKey_mem {k : String} {e : DictEntry} {m : EntryMap}
    (h : lookupKey k m = some e) : (k, e) ∈ m := by
  induction m with
  | nil => simp at h
  | cons kv rest ih =>
      rcases kv with ⟨k2, e2⟩
      by_cases h2 : k2 = k
      · subst h2
        rw [lookupKey_cons, if_pos rfl] at h
        cases h
        exact List.mem_cons_self _ _
      · rw [lookupKey_cons, if_neg h2] at h
        exact List.mem_cons_of_mem _ (ih h)

theorem mem_lookupKey {k : String} {e : DictEntry} {m : EntryMap}
    (hnd : (m.map Prod.fst).Nodup) (h : (k, e) ∈ m) : lookupKey k m = some e := by
  induction m with
  | nil => simp at h
  | cons kv rest ih =>
      rcases kv with ⟨k2, e2⟩
      simp only [List.map_cons, List.nodup_cons] at hnd
      rcases List.mem_cons.mp h with heq | hmem
      · cases heq
        simp
      · have hk2 : ¬ k2 = k := by
          intro hkk
          subst hkk
          exact hnd.1 (List.mem_map.mpr ⟨(k2, e), hmem, rfl⟩)
        rw [lookupKey_cons, if_neg hk2]
        exact ih hnd.2 hmem

theorem keys_setKey (k : String) (e : DictEntry) (m : EntryMap) :
    (setKey k e m).map Prod.fst =
      if k ∈ m.map Prod.fst then m.map Prod.fst else m.map Prod.fst ++ [k] := by
  induction m with
  | nil => simp
  | cons kv rest ih =>
      rcases kv with ⟨k2, e2⟩
      by_cases h2 : k2 = k
      · subst h2
        simp
      · rw [setKey_cons, if_neg h2]
        simp only [List.map_cons, ih]
        have hne : ¬ k = k2 := fun hh => h2 hh.symm
        by_cases hmem : k ∈ rest.map Prod.fst
        · simp [hmem, hne]
        · simp [hmem, hne]

theorem nodup_keys_setKey (k : String) (e : DictEntry) (m : EntryMap)
    (hnd : (m.map Prod.fst).Nodup) : ((setKey k e m).map Prod.fst).Nodup := by
  rw [keys_setKey]
  by_cases hmem : k ∈ m.map Prod.fst
  · simpa [hmem] using hnd
  · rw [if_neg hmem]
    exact List.Nodup.append hnd (List.nodup_singleton k) (by simpa using hmem)

/-! ## Merge-step equations -/

theorem mergeStep_absent {m : EntryMap} {k : String} {e : DictEntry} (s : MergeStats)
    (h : lookupKey k m = none) :
    mergeStep (m, s) (k, e) = (setKey k e m, { s with added := s.added + 1 }) := by
  simp [mergeStep, h]

theorem variants_filter_eq_nil {e ex : DictEntry}
    (hsub : ∀ v ∈ e.variants, v ∈ ex.variants) :
    (e.variants.dedup.filter fun v => !decide (v ∈ ex.variants)) = [] := by
  rw [List.filter_eq_nil_iff]
  intro a ha
  simp only [Bool.not_eq_true', decide_eq_false_iff_not, Decidable.not_not]
  exact hsub a (List.mem_dedup.mp ha)

theorem variants_filter_ne_nil {e ex : DictEntry}
    (hnew : ¬ ∀ v ∈ e.variants, v ∈ ex.variants) :
    (e.variants.dedup.filter fun v => !decide (v ∈ ex.variants)) ≠ [] := by
  intro hnil
  apply hnew
  intro v hv
  rw [List.filter_eq_nil_iff] at hnil
  have := hnil v (List.mem_dedup.mpr hv)
  simp only [Bool.not_eq_true', decide_eq_false_iff_not, Decidable.not_not] at this
  exact this

theorem mergeStep_skip {m : EntryMap} {k : String} {e ex : DictEntry} (s : MergeStats)
    (h : lookupKey k m = some ex) (hsub : ∀ v ∈ e.variants, v ∈ ex.variants) :
    mergeStep (m, s) (k, e) = (m, { s with skipped := s.skipped + 1 }) := by
  simp [mergeStep, h, variants_filter_eq_nil hsub]

theorem mergeStep_merge {m : EntryMap} {k : String} {e ex : DictEntry} (s : MergeStats)
    (h : lookupKey k m = some ex) (hnew : ¬ ∀ v ∈ e.variants, v ∈ ex.variants) :
    mergeStep (m, s) (k, e) =
      (setKey k { ex with variants := pySorted (ex.variants ++ e.variants).dedup } m,
       { s with merged_variants := s.merged_variants +
           (e.variants.dedup.filter fun v => !decide (v ∈ ex.variants)).length }) := by
  simp [mergeStep, h, variants_filter_ne_nil hnew]

/-! ## Frame, preservation and coverage of the merge fold -/

theorem mergeStep_lookup_ne (acc : EntryMap × MergeStats) (kv : String × DictEntry)
    (k1 : String) (hne : kv.1 ≠ k1) :
    lookupKey k1 (mergeStep acc kv).1 = lookupKey k1 acc.1 := by
  rcases acc with ⟨m, s⟩
  rcases kv with ⟨k, e⟩
  simp only at hne
  cases h : lookupKey k m with
  | none =>
      rw [mergeStep_absent s h]
      simp [lookupKey_setKey, hne]
  | some ex =>
      by_cases hall : ∀ v ∈ e.variants, v ∈ ex.variants
      · rw [mergeStep_skip s h hall]
      · rw [mergeStep_merge s h hall]
        simp [lookupKey_setKey, hne]

theorem mergeFold_lookup_not_mem (C : EntryMap) (acc : EntryMap × MergeStats)
    (k1 : String) (h : k1 ∉ C.map Prod.fst) :
    lookupKey k1 (C.foldl mergeStep acc).1 = lookupKey k1 acc.1 := by
  induction C generalizing acc with
  | nil => rfl
  | cons kv rest ih =>
      simp only [List.map_cons, List.mem_cons, not_or] at h
      rw [List.foldl_cons, ih _ h.2, mergeStep_lookup_ne _ _ _ (fun hh => h.1 hh.symm)]

theorem mergeStep_preserves (acc : EntryMap × MergeStats) (kv : String × DictEntry)
    {k : String} {ex : DictEntry} (h : lookupKey k acc.1 = some ex) :
    ∃ ex2, lookupKey k (mergeStep acc kv).1 = some ex2 ∧
      ex2.canonical = ex.canonical ∧ ex2.isAutoAdded = ex.isAutoAdded ∧
      ∀ v ∈ ex.variants, v ∈ ex2.variants := by
  rcases acc with ⟨m, s⟩
  rcases kv with ⟨k0, e0⟩
  simp only at h
  by_cases hk : k0 = k
  · subst hk
    by_cases hall : ∀ v ∈ e0.variants, v ∈ ex.variants
    · rw [mergeStep_skip s h hall]
      exact ⟨ex, h, rfl, rfl, fun v hv => hv⟩
    · rw [mergeStep_merge s h hall]
      refine ⟨{ ex with variants := pySorted (ex.variants ++ e0.variants).dedup },
        ?_, rfl, rfl, ?_⟩
      · show lookupKey k0 (setKey k0 _ m) = _
        rw [lookupKey_setKey, if_pos rfl]
      · intro v hv
        simp only [pySorted]
        rw [List.mem_insertionSort]
        exact List.mem_dedup.mpr (List.mem_append_left _ hv)
  · rw [mergeStep_lookup_ne _ _ _ hk]
    exact ⟨ex, h, rfl, rfl, fun v hv => hv⟩

theorem mergeFold_preserves (C : EntryMap) :
    ∀ (acc : EntryMap × MergeStats) {k : String} {ex : DictEntry},
      lookupKey k acc.1 = some ex →
      ∃ ex2, lookupKey k (C.foldl mergeStep acc).1 = some ex2 ∧
        ex2.canonical = ex.canonical ∧ ex2.isAutoAdded = ex.isAutoAdded ∧
        ∀ v ∈ ex.variants, v ∈ ex2.variants := by
  induction C with
  | nil =>
      intro acc k ex h
      exact ⟨ex, h, rfl, rfl, fun v hv => hv⟩
  | cons kv rest ih =>
      intro acc k ex h
      obtain ⟨ex1, h1, hc1, ha1, hv1⟩ := mergeStep_preserves acc kv h
      obtain ⟨ex2, h2, hc2, ha2, hv2⟩ := ih _ h1
      exact ⟨ex2, h2, hc2.trans hc1, ha2.trans ha1, fun v hv => hv2 v (hv1 v hv)⟩

theorem mergeStep_covers (acc : EntryMap × MergeStats) (kv : String × DictEntry) :
    ∃ ex, lookupKey kv.1 (mergeStep acc kv).1 = some ex ∧
      ∀ v ∈ kv.2.variants, v ∈ ex.variants := by
  rcases acc with ⟨m, s⟩
  rcases kv with ⟨k, e⟩
  cases h : lookupKey k m with
  | none =>
      rw [mergeStep_absent s h]
      refine ⟨e, ?_, fun v hv => hv⟩
      show lookupKey k (setKey k e m) = _
      rw [lookupKey_setKey, if_pos rfl]
  | some ex =>
      by_cases hall : ∀ v ∈ e.variants, v ∈ ex.variants
      · rw [mergeStep_skip s h hall]
        exact ⟨ex, h, hall⟩
      · rw [mergeStep_merge s h hall]
        refine ⟨{ ex with variants := pySorted (ex.variants ++ e.variants).dedup }, ?_, ?_⟩
        · show lookupKey k (setKey k _ m) = _
          rw [lookupKey_setKey, if_pos rfl]
        · intro v hv
          simp only [pySorted]
          rw [List.mem_insertionSort]
          exact List.mem_dedup.mpr (List.mem_append_right _ hv)

theorem mergeFold_covers (C : EntryMap) (acc : EntryMap × MergeStats)
    (kv : String × DictEntry) (hmem : kv ∈ C) :
    ∃ ex, lookupKey kv.1 (C.foldl mergeStep acc).1 = some ex ∧
      ∀ v ∈ kv.2.variants, v ∈ ex.variants := by
  induction C generalizing acc with
  | nil => simp at hmem
  | cons kv0 rest ih =>
      rcases List.mem_cons.mp hmem with heq | hmem2
      · subst heq
        obtain ⟨ex, h1, hv1⟩ := mergeStep_covers acc kv
        obtain ⟨ex2, h2, _, _, hv2⟩ := mergeFold_preserves rest _ h1
        exact ⟨ex2, h2, fun v hv => hv2 v (hv1 v hv)⟩
      · exact ih _ hmem2

theorem mergeFold_skips_all (C : EntryMap) (m : EntryMap) (s : MergeStats)
    (h : ∀ kv ∈ C, ∃ ex, lookupKey kv.1 m = some ex ∧ ∀ v ∈ kv.2.variants, v ∈ ex.variants) :
    C.foldl mergeStep (m, s) = (m, ⟨s.added, s.merged_variants, s.skipped + C.length⟩) := by
  induction C generalizing s with
  | nil => simp
  | cons kv rest ih =>
      obtain ⟨ex, hex, hall⟩ := h kv (List.mem_cons_self _ _)
      rcases kv with ⟨k, e⟩
      simp only at hex hall
      rw [List.foldl_cons, mergeStep_skip s hex hall,
        ih _ (fun kv2 hkv2 => h kv2 (List.mem_cons_of_mem _ hkv2))]
      rcases s with ⟨a, mv, sk⟩
      simp only [List.length_cons]
      rw [Nat.add_comm rest.length 1, ← Nat.add_assoc]

/-! ## Claim C1: idempotence of the merge -/

/-- C1: merging is idempotent.  If `merge_dictionaries D C` yields `(M, s1)`,
then merging the same candidate map `C` into `M` yields stats with
`added = 0`, `merged_variants = 0` and `skipped` equal to the number of keys
of `C` (`C` being a map, its keys are pairwise distinct). -/
theorem merge_dictionaries_idempotent (D : Dictionary) (C : EntryMap)
    (hC : (C.map Prod.fst).Nodup) (M : Dictionary) (s1 : MergeStats)
    (hM : merge_dictionaries D C = (M, s1)) :
    (merge_dictionaries M C).2 = ⟨0, 0, C.length⟩ := by
  have hMents : M.entries = (C.foldl mergeStep (D.entries, ⟨0, 0, 0⟩)).1 := by
    have h1 := congrArg (fun p => Dictionary.entries p.1) hM
    exact h1.symm
  have hcov : ∀ kv ∈ C, ∃ ex, lookupKey kv.1 M.entries = some ex ∧
      ∀ v ∈ kv.2.variants, v ∈ ex.variants := by
    intro kv hkv
    rw [hMents]
    exact mergeFold_covers C _ kv hkv
  have hunf : (merge_dictionaries M C).2 = (C.foldl mergeStep (M.entries, ⟨0, 0, 0⟩)).2 := rfl
  rw [hunf, mergeFold_skips_all C M.entries ⟨0, 0, 0⟩ hcov]
  simp

/-- Witness for `merge_dictionaries_idempotent` at a concrete input. -/
theorem merge_dictionaries_idempotent_witness :
    (merge_dictionaries
      (merge_dictionaries ⟨[("a", ⟨"A", false, ["x"]⟩)], 1⟩
        [("a", ⟨"A", false, ["x", "y"]⟩), ("b", ⟨"B", false, []⟩)]).1
      [("a", ⟨"A", false, ["x", "y"]⟩), ("b", ⟨"B", false, []⟩)]).2 = ⟨0, 0, 2⟩ :=
  merge_dictionaries_idempotent _ _ (by decide) _ _ rfl

/-! ## Claim C3: the merge preserves existing entries -/

/-- C3: `merge_dictionaries` never alters the `canonical` text or the
`isAutoAdded` flag of a key already present in the existing dictionary, and an
existing key not proposed by the candidate map passes through entirely
unchanged (same entry, hence same variant ordering). -/
theorem merge_preserves_existing (D : Dictionary) (C : EntryMap)
    (hD : (D.entries.map Prod.fst).Nodup) (k : String) (e : DictEntry)
    (hmem : (k, e) ∈ D.entries) :
    (∃ e2, lookupKey k (merge_dictionaries D C).1.entries = some e2 ∧
        e2.canonical = e.canonical ∧ e2.isAutoAdded = e.isAutoAdded) ∧
      (k ∉ C.map Prod.fst →
        lookupKey k (merge_dictionaries D C).1.entries = some e ∧
          (k, e) ∈ (merge_dictionaries D C).1.entries) := by
  have hlk : lookupKey k D.entries = some e := mem_lookupKey hD hmem
  have hent : (merge_dictionaries D C).1.entries
      = (C.foldl mergeStep (D.entries, ⟨0, 0, 0⟩)).1 := rfl
  constructor
  · obtain ⟨e2, h2, hc, ha, _⟩ := mergeFold_preserves C (D.entries, ⟨0, 0, 0⟩) hlk
    refine ⟨e2, ?_, hc, ha⟩
    rw [hent]
    exact h2
  · intro hnot
    have hframe : lookupKey k (merge_dictionaries D C).1.entries = some e := by
      rw [hent, mergeFold_lookup_not_mem C _ k hnot]
      exact hlk
    exact ⟨hframe, lookupKey_mem hframe⟩

/-- Witness for `merge_preserves_existing` at a concrete input. -/
theorem merge_preserves_existing_witness :
    (∃ e2, lookupKey "ex"
        (merge_dictionaries ⟨[("ex", ⟨"Ex", true, ["v2", "v1"]⟩)], 1⟩
          [("other", ⟨"O", false, []⟩)]).1.entries = some e2 ∧
        e2.canonical = "Ex" ∧ e2.isAutoAdded = true) ∧
      ("ex" ∉ ([("other", ⟨"O", false, []⟩)] : EntryMap).map Prod.fst →
        lookupKey "ex"
          (merge_dictionaries ⟨[("ex", ⟨"Ex", true, ["v2", "v1"]⟩)], 1⟩
            [("other", ⟨"O", false, []⟩)]).1.entries = some ⟨"Ex", true, ["v2", "v1"]⟩ ∧
          ("ex", (⟨"Ex", true, ["v2", "v1"]⟩ : DictEntry)) ∈
            (merge_dictionaries ⟨[("ex", ⟨"Ex", true, ["v2", "v1"]⟩)], 1⟩
              [("other", ⟨"O", false, []⟩)]).1.entries) :=
  merge_preserves_existing ⟨[("ex", ⟨"Ex", true, ["v2", "v1"]⟩)], 1⟩
    [("other", ⟨"O", false, []⟩)] (by decide) "ex" ⟨"Ex", true, ["v2", "v1"]⟩ (by decide)

/-! ## Pointwise characterisation of the merge stats -/

theorem newVariantCount_eq_zero {E : EntryMap} {kv : String × DictEntry} {ex : DictEntry}
    (h : lookupKey kv.1 E = some ex) (hall : ∀ v ∈ kv.2.variants, v ∈ ex.variants) :
    newVariantCount E kv = 0 := by
  simp only [newVariantCount, h]
  simp [variants_filter_eq_nil hall]

theorem all_mem_of_newVariantCount_eq_zero {E : EntryMap} {kv : String × DictEntry}
    {ex : DictEntry} (h : lookupKey kv.1 E = some ex) (hz : newVariantCount E kv = 0) :
    ∀ v ∈ kv.2.variants, v ∈ ex.variants := by
  rw [newVariantCount, h, List.length_eq_zero, List.filter_eq_nil_iff] at hz
  intro v hv
  have := hz v (List.mem_dedup.mpr hv)
  simp only [Bool.not_eq_true', decide_eq_false_iff_not, Decidable.not_not] at this
  exact this

theorem mergeFold_stats (E : EntryMap) (C : EntryMap) :
    ∀ (m : EntryMap) (s : MergeStats),
      (C.map Prod.fst).Nodup →
      (∀ kv ∈ C, lookupKey kv.1 m = lookupKey kv.1 E) →
      (C.foldl mergeStep (m, s)).2 =
        ⟨s.added + C.countP (isNewKey E),
         s.merged_variants + (C.map (newVariantCount E)).sum,
         s.skipped + C.countP (isSkippedKey E)⟩ := by
  induction C with
  | nil =>
      intro m s _ _
      simp
  | cons kv rest ih =>
      intro m s hnd hagree
      have hk : lookupKey kv.1 m = lookupKey kv.1 E := hagree kv (List.mem_cons_self _ _)
      simp only [List.map_cons, List.nodup_cons] at hnd
      have hagree_rest : ∀ m2 : EntryMap,
          (∀ kv2 ∈ rest, lookupKey kv2.1 m2 = lookupKey kv2.1 m) →
          ∀ kv2 ∈ rest, lookupKey kv2.1 m2 = lookupKey kv2.1 E := by
        intro m2 hsame kv2 hkv2
        rw [hsame kv2 hkv2]
        exact hagree kv2 (List.mem_cons_of_mem _ hkv2)
      have hne : ∀ kv2 ∈ rest, ¬ kv.1 = kv2.1 := by
        intro kv2 hkv2 hh
        exact hnd.1 (hh ▸ List.mem_map.mpr ⟨kv2, hkv2, rfl⟩)
      rcases kv with ⟨k, e⟩
      cases hE : lookupKey k E with
      | none =>
          have hm : lookupKey k m = none := by rw [hk, hE]
          rw [List.foldl_cons, mergeStep_absent s hm,
            ih (setKey k e m) _ hnd.2 (hagree_rest _ (fun kv2 hkv2 => by
              rw [lookupKey_setKey, if_neg (hne kv2 hkv2)]))]
          have hn : isNewKey E (k, e) = true := by simp [isNewKey, hE]
          have hnc : newVariantCount E (k, e) = 0 := by simp [newVariantCount, hE]
          have hs : isSkippedKey E (k, e) = false := by simp [isSkippedKey, hE]
          simp [List.countP_cons, hn, hs, hnc, MergeStats.mk.injEq]
          all_goals omega
      | some ex =>
          have hm : lookupKey k m = some ex := by rw [hk, hE]
          by_cases hall : ∀ v ∈ e.variants, v ∈ ex.variants
          · have hnc : newVariantCount E (k, e) = 0 := newVariantCount_eq_zero hE hall
            have hs : isSkippedKey E (k, e) = true := by
              simp [isSkippedKey, hE, hnc]
            have hn : isNewKey E (k, e) = false := by simp [isNewKey, hE]
            rw [List.foldl_cons, mergeStep_skip s hm hall,
              ih m _ hnd.2 (hagree_rest _ (fun kv2 hkv2 => rfl))]
            simp [List.countP_cons, hn, hs, hnc, MergeStats.mk.injEq]
            all_goals omega
          · have hnc : newVariantCount E (k, e) =
                (e.variants.dedup.filter fun v => !decide (v ∈ ex.variants)).length := by
              rw [newVariantCount, hE]
            have hnz : newVariantCount E (k, e) ≠ 0 := by
              intro hz
              exact hall (all_mem_of_newVariantCount_eq_zero hE hz)
            have hs : isSkippedKey E (k, e) = false := by
              simp [isSkippedKey, hE, Nat.beq_eq_true_eq, hnz]
            have hn : isNewKey E (k, e) = false := by simp [isNewKey, hE]
            rw [List.foldl_cons, mergeStep_merge s hm hall,
              ih _ _ hnd.2 (hagree_rest _ (fun kv2 hkv2 => by
                rw [lookupKey_setKey, if_neg (hne kv2 hkv2)]))]
            simp [List.countP_cons, hn, hs, hnc, MergeStats.mk.injEq]
            all_goals omega

/-- Closed form of the stats returned by `merge_dictionaries`. -/
theorem merge_dictionaries_stats (D : Dictionary) (C : EntryMap)
    (hC : (C.map Prod.fst).Nodup) :
    (merge_dictionaries D C).2 =
      ⟨C.countP (isNewKey D.entries),
       (C.map (newVariantCount D.entries)).sum,
       C.countP (isSkippedKey D.entries)⟩ := by
  have hunf : (merge_dictionaries D C).2
      = (C.foldl mergeStep (D.entries, ⟨0, 0, 0⟩)).2 := rfl
  rw [hunf, mergeFold_stats D.entries C D.entries ⟨0, 0, 0⟩ hC (fun kv _ => rfl)]
  simp

theorem key_class_sum (E : EntryMap) (kv : String × DictEntry) :
    ((if isNewKey E kv = true then 1 else 0) : Nat) +
      (if isSkippedKey E kv = true then 1 else 0) +
      (if isMergedKey E kv = true then 1 else 0) = 1 := by
  cases h : lookupKey kv.1 E with
  | none => simp [isNewKey, isSkippedKey, isMergedKey, h]
  | some ex =>
      by_cases hc : newVariantCount E kv = 0 <;>
        simp [isNewKey, isSkippedKey, isMergedKey, h, hc]

/-! ## Claim C10: the stats partition the candidate keys -/

/-- C10: every candidate key is counted exactly once, as added, as skipped, or
as a key contributing at least one merged variant, so
`added + skipped + #(merge-branch keys) = #(candidate keys)`. -/
theorem merge_stats_partition (D : Dictionary) (C : EntryMap)
    (hC : (C.map Prod.fst).Nodup) :
    (merge_dictionaries D C).2.added + (merge_dictionaries D C).2.skipped +
      C.countP (isMergedKey D.entries) = C.length := by
  rw [merge_dictionaries_stats D C hC]
  show C.countP (isNewKey D.entries) + C.countP (isSkippedKey D.entries) +
      C.countP (isMergedKey D.entries) = C.length
  clear hC
  induction C with
  | nil => simp
  | cons kv rest ih =>
      have h1 := key_class_sum D.entries kv
      simp only [List.countP_cons, List.length_cons]
      omega

/-- Witness for `merge_stats_partition` at a concrete input. -/
theorem merge_stats_partition_witness :
    (merge_dictionaries ⟨[("a", ⟨"A", false, ["x"]⟩), ("b", ⟨"B", false, ["y"]⟩)], 1⟩
        [("a", ⟨"A", false, ["x", "z"]⟩), ("b", ⟨"B", false, ["y"]⟩),
         ("c", ⟨"C", false, []⟩)]).2.added +
      (merge_dictionaries ⟨[("a", ⟨"A", false, ["x"]⟩), ("b", ⟨"B", false, ["y"]⟩)], 1⟩
        [("a", ⟨"A", false, ["x", "z"]⟩), ("b", ⟨"B", false, ["y"]⟩),
         ("c", ⟨"C", false, []⟩)]).2.skipped +
      ([("a", ⟨"A", false, ["x", "z"]⟩), ("b", ⟨"B", false, ["y"]⟩),
        ("c", ⟨"C", false, []⟩)] : EntryMap).countP
          (isMergedKey [("a", ⟨"A", false, ["x"]⟩), ("b", ⟨"B", false, ["y"]⟩)]) = 3 :=
  merge_stats_partition ⟨[("a", ⟨"A", false, ["x"]⟩), ("b", ⟨"B", false, ["y"]⟩)], 1⟩
    [("a", ⟨"A", false, ["x", "z"]⟩), ("b", ⟨"B", false, ["y"]⟩), ("c", ⟨"C", false, []⟩)]
    (by decide)

/-! ## Claim C2: variant union on key collision -/

/-- Removes the first occurrence of `kv` from an entry list. -/
def eraseOnce (kv : String × DictEntry) : EntryMap → EntryMap
  | [] => []
  | kv1 :: rest => if kv1 = kv then rest else kv1 :: eraseOnce kv rest

theorem perm_cons_eraseOnce {kv : String × DictEntry} {C : EntryMap} (h : kv ∈ C) :
    C.Perm (kv :: eraseOnce kv C) := by
  induction C with
  | nil => simp at h
  | cons kv1 rest ih =>
      by_cases h1 : kv1 = kv
      · subst h1
        rw [eraseOnce, if_pos rfl]
      · rw [eraseOnce, if_neg h1]
        rcases List.mem_cons.mp h with heq | hmem
        · exact absurd heq.symm h1
        · exact ((ih hmem).cons kv1).trans (List.Perm.swap kv kv1 _)

theorem mergeFold_entry_at (C : EntryMap) (m : EntryMap) (s : MergeStats)
    (k : String) (c : DictEntry) (hC : (C.map Prod.fst).Nodup) (hk : (k, c) ∈ C)
    {d : DictEntry} (hm : lookupKey k m = some d) :
    lookupKey k (C.foldl mergeStep (m, s)).1 =
      some (if ∀ v ∈ c.variants, v ∈ d.variants then d
            else { d with variants := pySorted (d.variants ++ c.variants).dedup }) := by
  obtain ⟨C1, C2, rfl⟩ := List.append_of_mem hk
  have hmap : ((C1 ++ (k, c) :: C2).map Prod.fst)
      = C1.map Prod.fst ++ k :: C2.map Prod.fst := by simp
  rw [hmap] at hC
  obtain ⟨hnd1, hnd2, hdisj⟩ := List.nodup_append.mp hC
  have hk1 : k ∉ C1.map Prod.fst := fun hmem => hdisj hmem (List.mem_cons_self _ _)
  have hk2 : k ∉ C2.map Prod.fst := (List.nodup_cons.mp hnd2).1
  rw [List.foldl_append, List.foldl_cons]
  rcases hacc : C1.foldl mergeStep (m, s) with ⟨m1, s1⟩
  have hm1 : lookupKey k m1 = some d := by
    have hfr := mergeFold_lookup_not_mem C1 (m, s) k hk1
    rw [hacc] at hfr
    simp only at hfr
    rw [hfr]
    exact hm
  by_cases hall : ∀ v ∈ c.variants, v ∈ d.variants
  · rw [if_pos hall, mergeStep_skip s1 hm1 hall, mergeFold_lookup_not_mem C2 _ k hk2]
    exact hm1
  · rw [if_neg hall, mergeStep_merge s1 hm1 hall, mergeFold_lookup_not_mem C2 _ k hk2]
    show lookupKey k (setKey k _ m1) = _
    rw [lookupKey_setKey, if_pos rfl]

/-- C2: when a candidate key collides with an existing key, the merged entry's
variants are exactly the distinct strings of the union of both variant lists,
sorted lexicographically, with `canonical` and `isAutoAdded` untouched, and
`merged_variants` grows by the number of newly introduced distinct strings for
that key; when no new string is proposed, the entry is left unchanged and the
key is counted in `skipped` instead. -/
theorem merge_variant_union (D : Dictionary) (C : EntryMap)
    (hC : (C.map Prod.fst).Nodup) (k : String) (c d : DictEntry)
    (hk : (k, c) ∈ C) (hD : lookupKey k D.entries = some d) :
    (∃ e, lookupKey k (merge_dictionaries D C).1.entries = some e ∧
       e.canonical = d.canonical ∧ e.isAutoAdded = d.isAutoAdded ∧
       ((∃ v ∈ c.variants, v ∉ d.variants) →
         (List.Sorted pyLe e.variants ∧ e.variants.Nodup ∧
           ∀ v, v ∈ e.variants ↔ (v ∈ d.variants ∨ v ∈ c.variants))) ∧
       ((∀ v ∈ c.variants, v ∈ d.variants) → e = d)) ∧
    (merge_dictionaries D C).2.merged_variants =
      newVariantCount D.entries (k, c) +
        ((eraseOnce (k, c) C).map (newVariantCount D.entries)).sum ∧
    newVariantCount D.entries (k, c) =
      (c.variants.dedup.filter fun v => !decide (v ∈ d.variants)).length ∧
    ((∀ v ∈ c.variants, v ∈ d.variants) →
      (merge_dictionaries D C).2.skipped =
        (eraseOnce (k, c) C).countP (isSkippedKey D.entries) + 1) := by
  have hperm : C.Perm ((k, c) :: eraseOnce (k, c) C) := perm_cons_eraseOnce hk
  have hcount : newVariantCount D.entries (k, c) =
      (c.variants.dedup.filter fun v => !decide (v ∈ d.variants)).length := by
    simp only [newVariantCount, hD]
  refine ⟨?_, ?_, hcount, ?_⟩
  · have hlook := mergeFold_entry_at C D.entries ⟨0, 0, 0⟩ k c hC hk hD
    by_cases hall : ∀ v ∈ c.variants, v ∈ d.variants
    · rw [if_pos hall] at hlook
      refine ⟨d, hlook, rfl, rfl, ?_, fun _ => rfl⟩
      intro hnew
      obtain ⟨v, hv, hnv⟩ := hnew
      exact absurd (hall v hv) hnv
    · rw [if_neg hall] at hlook
      refine ⟨_, hlook, rfl, rfl, ?_, fun h => absurd h hall⟩
      intro _
      refine ⟨List.sorted_insertionSort pyLe _, ?_, ?_⟩
      · exact ((List.perm_insertionSort pyLe _).nodup_iff).mpr (List.nodup_dedup _)
      · intro v
        simp only [pySorted]
        rw [List.mem_insertionSort, List.mem_dedup, List.mem_append]
  · rw [merge_dictionaries_stats D C hC]
    show (C.map (newVariantCount D.entries)).sum = _
    rw [List.Perm.sum_eq (hperm.map (newVariantCount D.entries))]
    simp
  · intro hall
    rw [merge_dictionaries_stats D C hC]
    show C.countP (isSkippedKey D.entries) = _
    rw [hperm.countP_eq]
    have hskip : isSkippedKey D.entries (k, c) = true := by
      simp [isSkippedKey, hD, @newVariantCount_eq_zero D.entries (k, c) d hD hall]
    simp [List.countP_cons, hskip]

/-- Witness for `merge_variant_union` at a concrete input (spec scenario D). -/
theorem merge_variant_union_witness :
    (∃ e, lookupKey "re-ink"
        (merge_dictionaries ⟨[("re-ink", ⟨"Re-Ink", false, ["reink"]⟩)], 1⟩
          [("re-ink", ⟨"Re-Ink", false, ["reink", "re ink"]⟩)]).1.entries = some e ∧
       e.canonical = "Re-Ink" ∧ e.isAutoAdded = false ∧
       ((∃ v ∈ ["reink", "re ink"], v ∉ ["reink"]) →
         (List.Sorted pyLe e.variants ∧ e.variants.Nodup ∧
           ∀ v, v ∈ e.variants ↔ (v ∈ ["reink"] ∨ v ∈ ["reink", "re ink"]))) ∧
       ((∀ v ∈ ["reink", "re ink"], v ∈ ["reink"]) → e = ⟨"Re-Ink", false, ["reink"]⟩)) ∧
    (merge_dictionaries ⟨[("re-ink", ⟨"Re-Ink", false, ["reink"]⟩)], 1⟩
        [("re-ink", ⟨"Re-Ink", false, ["reink", "re ink"]⟩)]).2.merged_variants =
      newVariantCount [("re-ink", ⟨"Re-Ink", false, ["reink"]⟩)]
          ("re-ink", ⟨"Re-Ink", false, ["reink", "re ink"]⟩) +
        ((eraseOnce ("re-ink", ⟨"Re-Ink", false, ["reink", "re ink"]⟩)
            [("re-ink", ⟨"Re-Ink", false, ["reink", "re ink"]⟩)]).map
          (newVariantCount [("re-ink", ⟨"Re-Ink", false, ["reink"]⟩)])).sum ∧
    newVariantCount [("re-ink", ⟨"Re-Ink", false, ["reink"]⟩)]
        ("re-ink", ⟨"Re-Ink", false, ["reink", "re ink"]⟩) =
      ((["reink", "re ink"] : List String).dedup.filter
        fun v => !decide (v ∈ (["reink"] : List String))).length ∧
    ((∀ v ∈ ["reink", "re ink"], v ∈ ["reink"]) →
      (merge_dictionaries ⟨[("re-ink", ⟨"Re-Ink", false, ["reink"]⟩)], 1⟩
          [("re-ink", ⟨"Re-Ink", false, ["reink", "re ink"]⟩)]).2.skipped =
        ((eraseOnce ("re-ink", ⟨"Re-Ink", false, ["reink", "re ink"]⟩)
            [("re-ink", ⟨"Re-Ink", false, ["reink", "re ink"]⟩)]).countP
          (isSkippedKey [("re-ink", ⟨"Re-Ink", false, ["reink"]⟩)]) + 1)) :=
  merge_variant_union ⟨[("re-ink", ⟨"Re-Ink", false, ["reink"]⟩)], 1⟩
    [("re-ink", ⟨"Re-Ink", false, ["reink", "re ink"]⟩)] (by decide)
    "re-ink" ⟨"Re-Ink", false, ["reink", "re ink"]⟩ ⟨"Re-Ink", false, ["reink"]⟩
    (by decide) (by decide)

/-! ## Claim C4: the classifier is total and first-match-wins -/

/-- C4: `classify_replacement` returns exactly one of the three categories,
characterised by the fixed first-match-wins order: `command` iff the untrimmed
`with` starts with `/`; `macro` iff it does not and either the lower-cased
`original` contains a trigger phrase or the `with` looks like a URL;
`spelling` otherwise.  In particular a slash-command `with` wins regardless of
the content of `original`. -/
theorem classify_replacement_characterisation (r : ReplacementRule) :
    (classify_replacement r = Category.command ↔ pyStartsWith r.withText "/" = true) ∧
    (classify_replacement r = Category.macroExp ↔
      (pyStartsWith r.withText "/" = false ∧
        (macroTriggers.any (fun t => pyContains (pyLower r.original) t) = true ∨
          pyContains r.withText "://" = true ∨ pyStartsWith r.withText "http" = true))) ∧
    (classify_replacement r = Category.spelling ↔
      (pyStartsWith r.withText "/" = false ∧
        macroTriggers.any (fun t => pyContains (pyLower r.original) t) = false ∧
        pyContains r.withText "://" = false ∧ pyStartsWith r.withText "http" = false)) ∧
    (pyStartsWith r.withText "/" = true → classify_replacement r = Category.command) := by
  simp only [classify_replacement]
  by_cases h1 : pyStartsWith r.withText "/" = true
  · simp [h1]
  · rw [Bool.not_eq_true] at h1
    by_cases h2 : macroTriggers.any (fun t => pyContains (pyLower r.original) t) = true
    · simp [h1, h2]
    · rw [Bool.not_eq_true] at h2
      by_cases h3 : pyContains r.withText "://" = true
      · simp [h1, h2, h3]
      · rw [Bool.not_eq_true] at h3
        by_cases h4 : pyStartsWith r.withText "http" = true
        · simp [h1, h2, h3, h4]
        · rw [Bool.not_eq_true] at h4
          simp [h1, h2, h3, h4]

/-- Witness for `classify_replacement_characterisation` at spec scenario F. -/
theorem classify_replacement_characterisation_witness :
    classify_replacement ⟨"open app", "/launch app"⟩ = Category.command :=
  (classify_replacement_characterisation ⟨"open app", "/launch app"⟩).1.mpr (by decide)

/-! ## EntryBuilder lemmas -/

theorem mem_setKey {kv : String × DictEntry} (k : String) (e : DictEntry) (m : EntryMap)
    (h : kv ∈ setKey k e m) : kv = (k, e) ∨ kv ∈ m := by
  induction m with
  | nil =>
      simp only [setKey_nil, List.mem_singleton] at h
      exact Or.inl h
  | cons kv1 rest ih =>
      rcases kv1 with ⟨k1, e1⟩
      by_cases h1 : k1 = k
      · subst h1
        rw [setKey_cons, if_pos rfl] at h
        rcases List.mem_cons.mp h with heq | hmem
        · exact Or.inl heq
        · exact Or.inr (List.mem_cons_of_mem _ hmem)
      · rw [setKey_cons, if_neg h1] at h
        rcases List.mem_cons.mp h with heq | hmem
        · exact Or.inr (heq ▸ List.mem_cons_self _ _)
        · rcases ih hmem with h2 | h2
          · exact Or.inl h2
          · exact Or.inr (List.mem_cons_of_mem _ h2)

theorem vocabPhase_entries_shape (V : List String) :
    ∀ (entries : EntryMap),
      (∀ kv ∈ entries, kv.2.isAutoAdded = false ∧ kv.2.variants = ([] : List String)) →
      ∀ kv ∈ V.foldl addVocabTerm entries,
        kv.2.isAutoAdded = false ∧ kv.2.variants = ([] : List String) := by
  induction V with
  | nil => intro entries hinv kv hkv; exact hinv kv hkv
  | cons t rest ih =>
      intro entries hinv kv hkv
      refine ih (addVocabTerm entries t) ?_ kv hkv
      intro kv2 hkv2
      simp only [addVocabTerm] at hkv2
      by_cases hk : pyStrip (pyLower t) = ""
      · rw [if_pos hk] at hkv2
        exact hinv kv2 hkv2
      · rw [if_neg hk] at hkv2
        cases hlk : lookupKey (pyStrip (pyLower t)) entries with
        | some e2 =>
            rw [hlk] at hkv2
            exact hinv kv2 hkv2
        | none =>
            rw [hlk] at hkv2
            rcases mem_setKey _ _ _ hkv2 with heq | hmem
            · rw [heq]
              exact ⟨rfl, rfl⟩
            · exact hinv kv2 hmem

theorem addReplacementRule_preserves (m : Bool) (entries : EntryMap) (r : ReplacementRule)
    {k : String} {e : DictEntry} (h : lookupKey k entries = some e) :
    ∃ e1, lookupKey k (addReplacementRule m entries r) = some e1 ∧
      e1.canonical = e.canonical ∧ e1.isAutoAdded = e.isAutoAdded ∧
      (e1.variants = e.variants ∨
        ∃ v, e1.variants = e.variants ++ [v] ∧ v = pyStrip r.original ∧
          v ∉ e.variants ∧ v ≠ "") := by
  simp only [addReplacementRule]
  by_cases h1 : classify_replacement r = Category.command
  · rw [if_pos h1]
    exact ⟨e, h, rfl, rfl, Or.inl rfl⟩
  · rw [if_neg h1]
    by_cases h2 : classify_replacement r = Category.macroExp ∧ m = false
    · rw [if_pos h2]
      exact ⟨e, h, rfl, rfl, Or.inl rfl⟩
    · rw [if_neg h2]
      by_cases h3 : pyLower (pyStrip r.withText) = ""
      · rw [if_pos h3]
        exact ⟨e, h, rfl, rfl, Or.inl rfl⟩
      · rw [if_neg h3]
        cases hlk : lookupKey (pyLower (pyStrip r.withText)) entries with
        | some e2 =>
            dsimp only
            by_cases h4 : pyStrip r.original ≠ "" ∧ pyStrip r.original ∉ e2.variants
            · rw [if_pos h4]
              by_cases hkk : pyLower (pyStrip r.withText) = k
              · subst hkk
                rw [h] at hlk
                injection hlk with he2
                subst he2
                refine ⟨⟨e.canonical, e.isAutoAdded, e.variants ++ [pyStrip r.original]⟩,
                  ?_, rfl, rfl, Or.inr ⟨pyStrip r.original, rfl, rfl, h4.2, h4.1⟩⟩
                rw [lookupKey_setKey, if_pos rfl]
              · refine ⟨e, ?_, rfl, rfl, Or.inl rfl⟩
                rw [lookupKey_setKey, if_neg hkk]
                exact h
            · rw [if_neg h4]
              exact ⟨e, h, rfl, rfl, Or.inl rfl⟩
        | none =>
            dsimp only
            have hkk : ¬ pyLower (pyStrip r.withText) = k := by
              intro hh
              rw [hh, h] at hlk
              exact Option.noConfusion hlk
            refine ⟨e, ?_, rfl, rfl, Or.inl rfl⟩
            rw [lookupKey_setKey, if_neg hkk]
            exact h

theorem buildRepl_preserves (m : Bool) (R : List ReplacementRule) :
    ∀ (entries : EntryMap) {k : String} {e : DictEntry},
      lookupKey k entries = some e → e.variants.Nodup →
      ∃ e1, lookupKey k (R.foldl (addReplacementRule m) entries) = some e1 ∧
        e1.canonical = e.canonical ∧ e1.isAutoAdded = e.isAutoAdded ∧
        e1.variants.Nodup ∧
        ∃ tail, e1.variants = e.variants ++ tail ∧
          List.Sublist tail (R.map fun r2 => pyStrip r2.original) := by
  induction R with
  | nil =>
      intro entries k e h hnd
      exact ⟨e, h, rfl, rfl, hnd, [], by simp, List.nil_sublist _⟩
  | cons r rest ih =>
      intro entries k e h hnd
      obtain ⟨e1, h1, hc1, ha1, hv1⟩ := addReplacementRule_preserves m entries r h
      rcases hv1 with hsame | ⟨v, happ, hvdef, hvnot, _⟩
      · obtain ⟨e2, h2, hc2, ha2, hnd2, tail, htail, hsub⟩ :=
          ih (addReplacementRule m entries r) h1 (hsame ▸ hnd)
        refine ⟨e2, h2, hc2.trans hc1, ha2.trans ha1, hnd2, tail, ?_, hsub.cons _⟩
        rw [htail, hsame]
      · have hnd1 : e1.variants.Nodup := by
          rw [happ]
          simp [List.nodup_append, hnd, hvnot]
        obtain ⟨e2, h2, hc2, ha2, hnd2, tail, htail, hsub⟩ :=
          ih (addReplacementRule m entries r) h1 hnd1
        refine ⟨e2, h2, hc2.trans hc1, ha2.trans ha1, hnd2, v :: tail, ?_, ?_⟩
        · rw [htail, happ, List.append_assoc]
          rfl
        · rw [List.map_cons, ← hvdef]
          exact hsub.cons₂ v

/-! ## Claim C5: vocabulary precedence in the builder -/

/-- C5: `build_almond_entries` processes the whole vocabulary before any
replacement, so a replacement sharing a vocabulary-sourced key never replaces
that entry's `canonical` text or `isAutoAdded` flag; it can only append
trimmed `original` strings to the entry's variants, each at most once
(case-sensitive exact comparison, insertion order preserved: the appended
variants form a duplicate-free sublist of the trimmed originals in rule
order). -/
theorem build_vocab_precedence (V : List String) (R : List ReplacementRule)
    (include_macros : Bool) (k : String) (e0 : DictEntry)
    (h0 : lookupKey k (V.foldl addVocabTerm []) = some e0) :
    ∃ e, lookupKey k (build_almond_entries V R include_macros) = some e ∧
      e.canonical = e0.canonical ∧ e.isAutoAdded = e0.isAutoAdded ∧
      e.variants.Nodup ∧
      ∃ tail, e.variants = e0.variants ++ tail ∧
        List.Sublist tail (R.map fun r2 => pyStrip r2.original) := by
  have hshape := vocabPhase_entries_shape V [] (by simp) (k, e0) (lookupKey_mem h0)
  have hnd : e0.variants.Nodup := by
    rw [hshape.2]
    exact List.nodup_nil
  exact buildRepl_preserves include_macros R (V.foldl addVocabTerm []) h0 hnd

/-- Witness for `build_vocab_precedence` at a concrete input. -/
theorem build_vocab_precedence_witness :
    ∃ e, lookupKey "foo" (build_almond_entries ["Foo"] [⟨"bar", "Foo"⟩] false) = some e ∧
      e.canonical = "Foo" ∧ e.isAutoAdded = false ∧
      e.variants.Nodup ∧
      ∃ tail, e.variants = ([] : List String) ++ tail ∧
        List.Sublist tail (([⟨"bar", "Foo"⟩] : List ReplacementRule).map
          fun r2 => pyStrip r2.original) :=
  build_vocab_precedence ["Foo"] [⟨"bar", "Foo"⟩] false "foo" ⟨"Foo", false, []⟩ (by decide)

/-! ## Claim C6: macro gating -/

theorem addReplacementRule_macro_false (entries : EntryMap) (r : ReplacementRule)
    (h : classify_replacement r = Category.macroExp) :
    addReplacementRule false entries r = entries := by
  have hne : ¬ classify_replacement r = Category.command := by
    rw [h]
    intro hh
    exact Category.noConfusion hh
  simp only [addReplacementRule]
  rw [if_neg hne, if_pos ⟨h, by trivial⟩]

theorem build_excludes_macros (V : List String) (R : List ReplacementRule) :
    build_almond_entries V R false =
      build_almond_entries V
        (R.filter fun r => decide (classify_replacement r ≠ Category.macroExp)) false := by
  unfold build_almond_entries
  generalize V.foldl addVocabTerm [] = E
  induction R generalizing E with
  | nil => rfl
  | cons r rest ih =>
      rw [List.foldl_cons, List.filter_cons]
      by_cases h : classify_replacement r = Category.macroExp
      · rw [addReplacementRule_macro_false E r h]
        have hd : (decide (classify_replacement r ≠ Category.macroExp)) = false := by
          simp [h]
        rw [hd, if_neg Bool.false_ne_true]
        exact ih E
      · have hd : (decide (classify_replacement r ≠ Category.macroExp)) = true := by
          simp [h]
        rw [hd, if_pos rfl, List.foldl_cons]
        exact ih (addReplacementRule false E r)

theorem pyLower_eq_empty_iff (s : String) : pyLower s = "" ↔ s = "" := by
  cases s with
  | mk l =>
      constructor
      · intro h
        have hdata : l.map Char.toLower = [] := congrArg String.data h
        rw [List.map_eq_nil_iff] at hdata
        rw [hdata]
      · intro h
        rw [h]
        rfl

theorem addReplacementRule_macro_true (entries : EntryMap) (r : ReplacementRule)
    (hcat : classify_replacement r = Category.macroExp)
    (hw : pyStrip r.withText ≠ "") :
    ∃ e, lookupKey (pyLower (pyStrip r.withText))
        (addReplacementRule true entries r) = some e ∧
      (pyStrip r.original ≠ "" → pyStrip r.original ∈ e.variants) := by
  have hne : ¬ classify_replacement r = Category.command := by
    rw [hcat]
    intro hh
    exact Category.noConfusion hh
  have hm : ¬ (classify_replacement r = Category.macroExp ∧ true = false) := by
    intro hh
    exact Bool.noConfusion hh.2
  have hkey : ¬ pyLower (pyStrip r.withText) = "" := by
    rw [pyLower_eq_empty_iff]
    exact hw
  simp only [addReplacementRule]
  rw [if_neg hne, if_neg hm, if_neg hkey]
  cases hlk : lookupKey (pyLower (pyStrip r.withText)) entries with
  | some e2 =>
      dsimp only
      by_cases h4 : pyStrip r.original ≠ "" ∧ pyStrip r.original ∉ e2.variants
      · rw [if_pos h4]
        refine ⟨⟨e2.canonical, e2.isAutoAdded, e2.variants ++ [pyStrip r.original]⟩, ?_, ?_⟩
        · rw [lookupKey_setKey, if_pos rfl]
        · intro _
          exact List.mem_append_right _ (List.mem_singleton.mpr rfl)
      · rw [if_neg h4]
        refine ⟨e2, hlk, ?_⟩
        intro ho
        by_cases hv : pyStrip r.original ∈ e2.variants
        · exact hv
        · exact absurd ⟨ho, hv⟩ h4
  | none =>
      dsimp only
      refine ⟨⟨pyStrip r.withText, false,
        if pyStrip r.original ≠ "" then [pyStrip r.original] else []⟩, ?_, ?_⟩
      · rw [lookupKey_setKey, if_pos rfl]
      · intro ho
        rw [if_pos ho]
        exact List.mem_singleton.mpr rfl

theorem buildRepl_mono (m : Bool) (R : List ReplacementRule) :
    ∀ (entries : EntryMap) {k : String} {e : DictEntry},
      lookupKey k entries = some e →
      ∃ e1, lookupKey k (R.foldl (addReplacementRule m) entries) = some e1 ∧
        ∀ v ∈ e.variants, v ∈ e1.variants := by
  induction R with
  | nil =>
      intro entries k e h
      exact ⟨e, h, fun v hv => hv⟩
  | cons r rest ih =>
      intro entries k e h
      obtain ⟨e1, h1, _, _, hv1⟩ := addReplacementRule_preserves m entries r h
      obtain ⟨e2, h2, hmono⟩ := ih (addReplacementRule m entries r) h1
      refine ⟨e2, h2, fun v hv => hmono v ?_⟩
      rcases hv1 with hsame | ⟨w, happ, _, _, _⟩
      · rw [hsame]
        exact hv
      · rw [happ]
        exact List.mem_append_left _ hv

/-- C6: with `include_macros = false` the candidate map is the one built from
the replacement list with all macro-classified rules removed (no macro rule
contributes an entry or a variant); with `include_macros = true` every macro
rule whose `with` is non-empty after trimming contributes: its key is present
in the candidate map and, when its trimmed `original` is non-empty, that
string is among the entry's variants. -/
theorem macro_gating (V : List String) (R : List ReplacementRule) :
    (build_almond_entries V R false =
      build_almond_entries V
        (R.filter fun r => decide (classify_replacement r ≠ Category.macroExp)) false) ∧
    (∀ r ∈ R, classify_replacement r = Category.macroExp → pyStrip r.withText ≠ "" →
      ∃ e, lookupKey (pyLower (pyStrip r.withText))
          (build_almond_entries V R true) = some e ∧
        (pyStrip r.original ≠ "" → pyStrip r.original ∈ e.variants)) := by
  constructor
  · exact build_excludes_macros V R
  · intro r hr hcat hw
    obtain ⟨R1, R2, rfl⟩ := List.append_of_mem hr
    unfold build_almond_entries
    rw [List.foldl_append, List.foldl_cons]
    obtain ⟨e, he, hv⟩ := addReplacementRule_macro_true
      (R1.foldl (addReplacementRule true) (V.foldl addVocabTerm [])) r hcat hw
    obtain ⟨e1, he1, hmono⟩ := buildRepl_mono true R2 _ he
    exact ⟨e1, he1, fun ho => hmono _ (hv ho)⟩

/-- Witness for `macro_gating` at spec scenario E. -/
theorem macro_gating_witness :
    ∃ e, lookupKey (pyLower (pyStrip "foo@bar.com"))
        (build_almond_entries [] [⟨"my email", "foo@bar.com"⟩] true) = some e ∧
      (pyStrip "my email" ≠ "" → pyStrip "my email" ∈ e.variants) :=
  (macro_gating [] [⟨"my email", "foo@bar.com"⟩]).2 ⟨"my email", "foo@bar.com"⟩
    (by decide) (by decide) (by decide)

/-! ## Character-level facts about `Char.toLower` and whitespace -/

theorem char_toNat_ofNat {n : Nat} (h : Nat.isValidChar n) : (Char.ofNat n).toNat = n := by
  rw [Char.ofNat, dif_pos h]
  rfl

theorem char_eq_iff_toNat {c d : Char} : c = d ↔ c.toNat = d.toNat := by
  constructor
  · intro h
    rw [h]
  · intro h
    have h2 := congrArg Char.ofNat h
    rwa [Char.ofNat_toNat, Char.ofNat_toNat] at h2

theorem isWhitespace_eq_false_of_toNat {c : Char}
    (h : c.toNat ≠ 32 ∧ c.toNat ≠ 9 ∧ c.toNat ≠ 13 ∧ c.toNat ≠ 10) :
    c.isWhitespace = false := by
  have h32 : ¬ c = ' ' := fun hh => h.1 (char_eq_iff_toNat.mp hh)
  have h9 : ¬ c = '\t' := fun hh => h.2.1 (char_eq_iff_toNat.mp hh)
  have h13 : ¬ c = '\r' := fun hh => h.2.2.1 (char_eq_iff_toNat.mp hh)
  have h10 : ¬ c = '\n' := fun hh => h.2.2.2 (char_eq_iff_toNat.mp hh)
  simp [Char.isWhitespace, h32, h9, h13, h10]

theorem toLower_eq_of_not_upper {c : Char} (h : ¬(65 ≤ c.toNat ∧ c.toNat ≤ 90)) :
    Char.toLower c = c := by
  rw [Char.toLower, if_neg h]

theorem toNat_toLower_of_upper {c : Char} (h1 : 65 ≤ c.toNat) (h2 : c.toNat ≤ 90) :
    (Char.toLower c).toNat = c.toNat + 32 := by
  rw [Char.toLower, if_pos ⟨h1, h2⟩]
  exact char_toNat_ofNat (Or.inl (by omega))

theorem toLower_toLower (c : Char) : Char.toLower (Char.toLower c) = Char.toLower c := by
  by_cases h : 65 ≤ c.toNat ∧ c.toNat ≤ 90
  · have ht := toNat_toLower_of_upper h.1 h.2
    apply toLower_eq_of_not_upper
    rw [ht]
    omega
  · rw [toLower_eq_of_not_upper h, toLower_eq_of_not_upper h]

theorem isWhitespace_toLower (c : Char) :
    (Char.toLower c).isWhitespace = c.isWhitespace := by
  by_cases h : 65 ≤ c.toNat ∧ c.toNat ≤ 90
  · have ht := toNat_toLower_of_upper h.1 h.2
    rw [isWhitespace_eq_false_of_toNat (by rw [ht]; omega),
      isWhitespace_eq_false_of_toNat (by omega)]
  · rw [toLower_eq_of_not_upper h]

/-! ## String-level normalisation facts -/

theorem pyLower_pyLower (s : String) : pyLower (pyLower s) = pyLower s := by
  cases s with
  | mk l =>
      show String.mk (((l.map Char.toLower).map Char.toLower)) = String.mk (l.map Char.toLower)
      rw [List.map_map]
      exact congrArg String.mk (List.map_congr_left fun c _ => toLower_toLower c)

theorem dropWhile_map_eq {p : Char → Bool} {f : Char → Char}
    (hp : ∀ c, p (f c) = p c) (l : List Char) :
    (l.map f).dropWhile p = (l.dropWhile p).map f := by
  induction l with
  | nil => rfl
  | cons c cs ih =>
      rw [List.map_cons, List.dropWhile_cons, List.dropWhile_cons, hp c]
      by_cases h : p c = true
      · rw [if_pos h, if_pos h, ih]
      · rw [if_neg h, if_neg h, List.map_cons]

theorem stripChars_map_toLower (l : List Char) :
    stripChars (l.map Char.toLower) = (stripChars l).map Char.toLower := by
  unfold stripChars
  rw [dropWhile_map_eq isWhitespace_toLower, ← List.map_reverse,
    dropWhile_map_eq isWhitespace_toLower, ← List.map_reverse]

theorem pyStrip_pyLower (s : String) : pyStrip (pyLower s) = pyLower (pyStrip s) := by
  cases s with
  | mk l =>
      show String.mk (stripChars (l.map Char.toLower))
          = String.mk ((stripChars l).map Char.toLower)
      rw [stripChars_map_toLower]

theorem dropWhile_head_false {p : Char → Bool} {l : List Char} {c : Char}
    {rest : List Char} (h : l.dropWhile p = c :: rest) : p c = false := by
  have hh := List.head?_dropWhile_not p l
  rw [h] at hh
  exact hh

theorem stripChars_idem (l : List Char) : stripChars (stripChars l) = stripChars l := by
  have key : ∀ m : List Char,
      (List.rdropWhile Char.isWhitespace (m.dropWhile Char.isWhitespace)).dropWhile
          Char.isWhitespace =
        List.rdropWhile Char.isWhitespace (m.dropWhile Char.isWhitespace) := by
    intro m
    cases hBc : List.rdropWhile Char.isWhitespace (m.dropWhile Char.isWhitespace) with
    | nil => rfl
    | cons b bs =>
        apply List.dropWhile_cons_of_neg
        obtain ⟨t, ht⟩ :=
          List.rdropWhile_prefix Char.isWhitespace (m.dropWhile Char.isWhitespace)
        rw [hBc] at ht
        have hAc : m.dropWhile Char.isWhitespace = b :: (bs ++ t) := by
          rw [← ht]
          simp
        have hfalse : Char.isWhitespace b = false := dropWhile_head_false hAc
        simp [hfalse]
  show List.rdropWhile Char.isWhitespace
      ((List.rdropWhile Char.isWhitespace (l.dropWhile Char.isWhitespace)).dropWhile
        Char.isWhitespace) = _
  rw [key l]
  exact List.rdropWhile_idempotent _ _

theorem pyStrip_pyStrip (s : String) : pyStrip (pyStrip s) = pyStrip s := by
  cases s with
  | mk l =>
      show String.mk (stripChars (stripChars l)) = String.mk (stripChars l)
      rw [stripChars_idem]

/-! ## Claim C9: candidate-map key invariants -/

theorem nodup_keys_addVocabTerm (entries : EntryMap) (t : String)
    (h : (entries.map Prod.fst).Nodup) :
    ((addVocabTerm entries t).map Prod.fst).Nodup := by
  unfold addVocabTerm
  by_cases hk : pyStrip (pyLower t) = ""
  · rwa [if_pos hk]
  · rw [if_neg hk]
    cases hlk : lookupKey (pyStrip (pyLower t)) entries with
    | some e => exact h
    | none => exact nodup_keys_setKey _ _ _ h

theorem nodup_keys_addReplacementRule (m : Bool) (entries : EntryMap)
    (r : ReplacementRule) (h : (entries.map Prod.fst).Nodup) :
    ((addReplacementRule m entries r).map Prod.fst).Nodup := by
  unfold addReplacementRule
  by_cases h1 : classify_replacement r = Category.command
  · rwa [if_pos h1]
  · rw [if_neg h1]
    by_cases h2 : classify_replacement r = Category.macroExp ∧ m = false
    · rwa [if_pos h2]
    · rw [if_neg h2]
      by_cases h3 : pyLower (pyStrip r.withText) = ""
      · rwa [if_pos h3]
      · rw [if_neg h3]
        cases hlk : lookupKey (pyLower (pyStrip r.withText)) entries with
        | some e2 =>
            dsimp only
            by_cases h4 : pyStrip r.original ≠ "" ∧ pyStrip r.original ∉ e2.variants
            · rw [if_pos h4]
              exact nodup_keys_setKey _ _ _ h
            · rwa [if_neg h4]
        | none =>
            dsimp only
            exact nodup_keys_setKey _ _ _ h

theorem nodup_keys_build (V : List String) (R : List ReplacementRule) (m : Bool) :
    ((build_almond_entries V R m).map Prod.fst).Nodup := by
  unfold build_almond_entries
  have hvocab : ∀ (entries : EntryMap), (entries.map Prod.fst).Nodup →
      ((V.foldl addVocabTerm entries).map Prod.fst).Nodup := by
    induction V with
    | nil => intro entries h; exact h
    | cons t rest ih =>
        intro entries h
        exact ih _ (nodup_keys_addVocabTerm entries t h)
  have hrepl : ∀ (entries : EntryMap), (entries.map Prod.fst).Nodup →
      ((R.foldl (addReplacementRule m) entries).map Prod.fst).Nodup := by
    induction R with
    | nil => intro entries h; exact h
    | cons r rest ih =>
        intro entries h
        exact ih _ (nodup_keys_addReplacementRule m entries r h)
  exact hrepl _ (hvocab [] (by simp))

/-- The key-shape invariant maintained by the builder: every key is its own
lower-casing and equals the lower-cased trimmed canonical text of its entry. -/
def keyInvariant (kv : String × DictEntry) : Prop :=
  pyLower kv.1 = kv.1 ∧ kv.1 = pyLower (pyStrip kv.2.canonical)

theorem keyInvariant_addVocabTerm (entries : EntryMap) (t : String)
    (h : ∀ kv ∈ entries, keyInvariant kv) :
    ∀ kv ∈ addVocabTerm entries t, keyInvariant kv := by
  intro kv hkv
  unfold addVocabTerm at hkv
  by_cases hk : pyStrip (pyLower t) = ""
  · rw [if_pos hk] at hkv
    exact h kv hkv
  · rw [if_neg hk] at hkv
    cases hlk : lookupKey (pyStrip (pyLower t)) entries with
    | some e =>
        rw [hlk] at hkv
        exact h kv hkv
    | none =>
        rw [hlk] at hkv
        rcases mem_setKey _ _ _ hkv with heq | hmem
        · rw [heq]
          constructor
          · show pyLower (pyStrip (pyLower t)) = pyStrip (pyLower t)
            rw [pyStrip_pyLower, pyLower_pyLower]
          · show pyStrip (pyLower t) = pyLower (pyStrip t)
            rw [pyStrip_pyLower]
        · exact h kv hmem

theorem keyInvariant_addReplacementRule (m : Bool) (entries : EntryMap)
    (r : ReplacementRule) (h : ∀ kv ∈ entries, keyInvariant kv) :
    ∀ kv ∈ addReplacementRule m entries r, keyInvariant kv := by
  intro kv hkv
  unfold addReplacementRule at hkv
  by_cases h1 : classify_replacement r = Category.command
  · rw [if_pos h1] at hkv
    exact h kv hkv
  · rw [if_neg h1] at hkv
    by_cases h2 : classify_replacement r = Category.macroExp ∧ m = false
    · rw [if_pos h2] at hkv
      exact h kv hkv
    · rw [if_neg h2] at hkv
      by_cases h3 : pyLower (pyStrip r.withText) = ""
      · rw [if_pos h3] at hkv
        exact h kv hkv
      · rw [if_neg h3] at hkv
        cases hlk : lookupKey (pyLower (pyStrip r.withText)) entries with
        | some e2 =>
            rw [hlk] at hkv
            dsimp only at hkv
            by_cases h4 : pyStrip r.original ≠ "" ∧ pyStrip r.original ∉ e2.variants
            · rw [if_pos h4] at hkv
              rcases mem_setKey _ _ _ hkv with heq | hmem
              · have hold : keyInvariant (pyLower (pyStrip r.withText), e2) :=
                  h _ (lookupKey_mem hlk)
                rw [heq]
                exact ⟨hold.1, hold.2⟩
              · exact h kv hmem
            · rw [if_neg h4] at hkv
              exact h kv hkv
        | none =>
            rw [hlk] at hkv
            dsimp only at hkv
            rcases mem_setKey _ _ _ hkv with heq | hmem
            · rw [heq]
              constructor
              · show pyLower (pyLower (pyStrip r.withText)) = pyLower (pyStrip r.withText)
                rw [pyLower_pyLower]
              · show pyLower (pyStrip r.withText) = pyLower (pyStrip (pyStrip r.withText))
                rw [pyStrip_pyStrip]
            · exact h kv hmem

theorem keyInvariant_build (V : List String) (R : List ReplacementRule) (m : Bool) :
    ∀ kv ∈ build_almond_entries V R m, keyInvariant kv := by
  unfold build_almond_entries
  have hvocab : ∀ (entries : EntryMap), (∀ kv ∈ entries, keyInvariant kv) →
      ∀ kv ∈ V.foldl addVocabTerm entries, keyInvariant kv := by
    induction V with
    | nil => intro entries h; exact h
    | cons t rest ih =>
        intro entries h
        exact ih _ (keyInvariant_addVocabTerm entries t h)
  have hrepl : ∀ (entries : EntryMap), (∀ kv ∈ entries, keyInvariant kv) →
      ∀ kv ∈ R.foldl (addReplacementRule m) entries, keyInvariant kv := by
    induction R with
    | nil => intro entries h; exact h
    | cons r rest ih =>
        intro entries h
        exact ih _ (keyInvariant_addReplacementRule m entries r h)
  exact hrepl _ (hvocab [] (by simp))

/-- Counterexample to C9 as stated: for the vocabulary term `" Foo"` (with
leading whitespace) the candidate key is `"foo"` but the lower-cased canonical
text is `" foo"`, which differs from the key. -/
theorem build_key_canonical_cex :
    build_almond_entries [" Foo"] [] false = [("foo", ⟨" Foo", false, []⟩)] ∧
      pyLower " Foo" ≠ "foo" := by
  constructor
  · decide
  · decide

/-- C9 (amended): in every candidate map built by `build_almond_entries` the
keys are pairwise distinct, every key equals its own lower-casing, and every
key equals the lower-cased *trimmed* canonical text of its entry (for raw
vocabulary terms with surrounding whitespace the lower-cased untrimmed
canonical differs from the key). -/
theorem build_key_invariant (V : List String) (R : List ReplacementRule) (m : Bool) :
    ((build_almond_entries V R m).map Prod.fst).Nodup ∧
      ∀ kv ∈ build_almond_entries V R m,
        pyLower kv.1 = kv.1 ∧ kv.1 = pyLower (pyStrip kv.2.canonical) :=
  ⟨nodup_keys_build V R m, fun kv hkv => keyInvariant_build V R m kv hkv⟩

/-! ## Claim C7: vocabulary deduplication and canonical casing -/

theorem vocabPhase_lookup_preserved (V : List String) :
    ∀ (entries : EntryMap) {k : String} {e : DictEntry},
      lookupKey k entries = some e →
      lookupKey k (V.foldl addVocabTerm entries) = some e := by
  induction V with
  | nil => intro entries k e h; exact h
  | cons t rest ih =>
      intro entries k e h
      refine ih (addVocabTerm entries t) ?_
      unfold addVocabTerm
      by_cases hk : pyStrip (pyLower t) = ""
      · rwa [if_pos hk]
      · rw [if_neg hk]
        cases hlk : lookupKey (pyStrip (pyLower t)) entries with
        | some e2 => exact h
        | none =>
            rw [lookupKey_setKey]
            have hne : ¬ pyStrip (pyLower t) = k := by
              intro hh
              rw [hh, h] at hlk
              exact Option.noConfusion hlk
            rwa [if_neg hne]

theorem vocabPhase_lookup_fresh (V : List String) (k : String) (hk : k ≠ "") :
    ∀ (entries : EntryMap), lookupKey k entries = none →
      lookupKey k (V.foldl addVocabTerm entries) =
        (V.find? fun t => decide (pyStrip (pyLower t) = k)).map
          fun t => (⟨t, false, []⟩ : DictEntry) := by
  induction V with
  | nil =>
      intro entries h
      simp [h]
  | cons t rest ih =>
      intro entries h
      rw [List.foldl_cons]
      by_cases hp : pyStrip (pyLower t) = k
      · have hkt : ¬ pyStrip (pyLower t) = "" := by
          rw [hp]
          exact hk
        have hstep : lookupKey k (addVocabTerm entries t) = some ⟨t, false, []⟩ := by
          unfold addVocabTerm
          rw [if_neg hkt, hp, h]
          rw [lookupKey_setKey, if_pos rfl]
        rw [vocabPhase_lookup_preserved rest _ hstep, List.find?_cons_of_pos _ (by simp [hp])]
        rfl
      · have hstep : lookupKey k (addVocabTerm entries t) = none := by
          unfold addVocabTerm
          by_cases hkt : pyStrip (pyLower t) = ""
          · rwa [if_pos hkt]
          · rw [if_neg hkt]
            cases hlk : lookupKey (pyStrip (pyLower t)) entries with
            | some e2 => exact h
            | none =>
                rw [lookupKey_setKey, if_neg hp]
                exact h
        rw [ih _ hstep, List.find?_cons_of_neg _ (by simp [hp])]

theorem find_least_of_sorted (p : String → Bool) (V : List String)
    (hs : List.Sorted pyLe V) {t0 : String} (h : V.find? p = some t0) :
    ∀ t ∈ V, p t = true → pyLe t0 t := by
  induction V with
  | nil => simp at h
  | cons a rest ih =>
      by_cases ha : p a = true
      · rw [List.find?_cons_of_pos _ ha] at h
        injection h with h0
        intro t ht _
        rcases List.mem_cons.mp ht with heq2 | hmem
        · rw [heq2, ← h0]
          exact pyLe_refl a
        · rw [← h0]
          exact List.rel_of_sorted_cons hs t hmem
      · rw [List.find?_cons_of_neg _ ha] at h
        intro t ht hp
        rcases List.mem_cons.mp ht with heq | hmem
        · rw [heq] at hp
          exact absurd hp ha
        · exact ih hs.of_cons h t hmem hp

theorem mem_load_vocabulary_iff (docs : List (List String)) (t : String) :
    t ∈ load_vocabulary docs ↔ t ∈ docs.flatten := by
  unfold load_vocabulary pySorted
  rw [List.mem_insertionSort, List.mem_dedup]

theorem sorted_load_vocabulary (docs : List (List String)) :
    List.Sorted pyLe (load_vocabulary docs) :=
  List.sorted_insertionSort pyLe _

/-- Counterexample to C7 as stated: the documents list the casing `"resync"`
first and `"Resync"` second, yet the candidate entry's canonical text is
`"Resync"` (the loader collapses the vocabulary into a set and sorts it, so
document scan order is lost), not the first-occurrence casing `"resync"`. -/
theorem vocab_first_occurrence_cex :
    build_almond_entries (load_vocabulary [["resync", "Resync"]]) [] false =
        [("resync", ⟨"Resync", false, []⟩)] ∧
      ([["resync", "Resync"]] : List (List String)).flatten.head? = some "resync" ∧
      ("Resync" : String) ≠ "resync" := by
  refine ⟨by decide, rfl, by decide⟩

/-- C7 (amended): vocabulary deduplication is by trimmed-lower-cased form —
exactly one candidate entry exists per normalised key — but the canonical
casing kept is that of the lexicographically least (by code point) raw term
among those sharing the normalised key, i.e. the first occurrence in the
loader's sorted deduplicated output, not the first occurrence in document
scan order. -/
theorem vocab_dedup_canonical (docs : List (List String)) (t1 t2 : String)
    (h1 : t1 ∈ docs.flatten) (h2 : t2 ∈ docs.flatten)
    (heq : pyStrip (pyLower t1) = pyStrip (pyLower t2))
    (hne : pyStrip (pyLower t1) ≠ "") :
    ((build_almond_entries (load_vocabulary docs) [] false).map Prod.fst).Nodup ∧
      ∃ e, lookupKey (pyStrip (pyLower t1))
          (build_almond_entries (load_vocabulary docs) [] false) = some e ∧
        e.canonical ∈ docs.flatten ∧
        pyStrip (pyLower e.canonical) = pyStrip (pyLower t1) ∧
        ∀ t ∈ docs.flatten, pyStrip (pyLower t) = pyStrip (pyLower t1) →
          pyLe e.canonical t := by
  refine ⟨nodup_keys_build _ _ _, ?_⟩
  have hbuild : build_almond_entries (load_vocabulary docs) [] false
      = (load_vocabulary docs).foldl addVocabTerm [] := rfl
  have hlook := vocabPhase_lookup_fresh (load_vocabulary docs) (pyStrip (pyLower t1)) hne
    [] rfl
  have hmem1 : t1 ∈ load_vocabulary docs := (mem_load_vocabulary_iff docs t1).mpr h1
  cases hfind : (load_vocabulary docs).find?
      fun t => decide (pyStrip (pyLower t) = pyStrip (pyLower t1)) with
  | none =>
      rw [List.find?_eq_none] at hfind
      exact absurd (by simp : decide (pyStrip (pyLower t1) = pyStrip (pyLower t1)) = true)
        (by simpa using hfind t1 hmem1)
  | some t0 =>
      rw [hfind] at hlook
      refine ⟨⟨t0, false, []⟩, ?_, ?_, ?_, ?_⟩
      · rw [hbuild, hlook]
        rfl
      · exact (mem_load_vocabulary_iff docs t0).mp (List.mem_of_find?_eq_some hfind)
      · have := List.find?_some hfind
        simpa using this
      · intro t ht hteq
        exact find_least_of_sorted _ _ (sorted_load_vocabulary docs) hfind t
          ((mem_load_vocabulary_iff docs t).mpr ht) (by simp [hteq])

/-- Witness for `vocab_dedup_canonical` at a concrete input. -/
theorem vocab_dedup_canonical_witness :
    ((build_almond_entries (load_vocabulary [["resync", "Resync"]]) [] false).map
        Prod.fst).Nodup ∧
      ∃ e, lookupKey (pyStrip (pyLower "resync"))
          (build_almond_entries (load_vocabulary [["resync", "Resync"]]) [] false) = some e ∧
        e.canonical ∈ ([["resync", "Resync"]] : List (List String)).flatten ∧
        pyStrip (pyLower e.canonical) = pyStrip (pyLower "resync") ∧
        ∀ t ∈ ([["resync", "Resync"]] : List (List String)).flatten,
          pyStrip (pyLower t) = pyStrip (pyLower "resync") → pyLe e.canonical t :=
  vocab_dedup_canonical [["resync", "Resync"]] "resync" "Resync"
    (by decide) (by decide) (by decide) (by decide)

/-! ## Claim C8: loader filtering of empty replacement fields -/

theorem mem_keepRule {r : ReplacementRule} (acc : List ReplacementRule)
    (d : ReplacementRule) :
    r ∈ keepRule acc d ↔
      r ∈ acc ∨ (r = d ∧ d.original ≠ "" ∧ d.withText ≠ "") := by
  unfold keepRule
  by_cases h1 : d.original ≠ "" ∧ d.withText ≠ ""
  · rw [if_pos h1]
    by_cases h2 : d ∈ acc
    · rw [if_pos h2]
      constructor
      · intro h
        exact Or.inl h
      · intro h
        rcases h with h | ⟨heq, _⟩
        · exact h
        · exact heq ▸ h2
    · rw [if_neg h2]
      rw [List.mem_append, List.mem_singleton]
      constructor
      · intro h
        rcases h with h | h
        · exact Or.inl h
        · exact Or.inr ⟨h, h1⟩
      · intro h
        rcases h with h | ⟨heq, _⟩
        · exact Or.inl h
        · exact Or.inr heq
  · rw [if_neg h1]
    constructor
    · intro h
      exact Or.inl h
    · intro h
      rcases h with h | ⟨_, hne⟩
      · exact h
      · exact absurd hne h1

theorem mem_keepRule_foldl {r : ReplacementRule} (doc : List ReplacementRule) :
    ∀ acc, r ∈ doc.foldl keepRule acc ↔
      r ∈ acc ∨ (r ∈ doc ∧ r.original ≠ "" ∧ r.withText ≠ "") := by
  induction doc with
  | nil =>
      intro acc
      simp
  | cons d doc ih =>
      intro acc
      rw [List.foldl_cons, ih, mem_keepRule]
      constructor
      · intro h
        rcases h with (h | ⟨heq, hd⟩) | ⟨hmem, hr⟩
        · exact Or.inl h
        · exact Or.inr ⟨heq ▸ List.mem_cons_self _ _, heq ▸ hd⟩
        · exact Or.inr ⟨List.mem_cons_of_mem _ hmem, hr⟩
      · intro h
        rcases h with h | ⟨hmem, hr⟩
        · exact Or.inl (Or.inl h)
        · rcases List.mem_cons.mp hmem with heq | hmem2
          · exact Or.inl (Or.inr ⟨heq, heq ▸ hr⟩)
          · exact Or.inr ⟨hmem2, hr⟩

/-- Counterexample to C8 as stated: a rule whose `original` is whitespace-only
(empty after trimming) is NOT discarded by the loader — the loader tests raw
Python truthiness, not trimmed emptiness. -/
theorem load_replacements_whitespace_cex :
    load_replacements [[⟨"   ", "x"⟩]] = [⟨"   ", "x"⟩] ∧
      pyStrip "   " = "" := by
  refine ⟨by decide, by decide⟩

/-- C8 (amended): the loader discards exactly the rules with a *raw*-empty
`original` or `with` field: a rule appears in the replacements output iff it
occurs in some scanned document and both its untrimmed fields are non-empty.
Whitespace-only fields (empty only after trimming) pass through. -/
theorem load_replacements_mem_iff (docs : List (List ReplacementRule))
    (r : ReplacementRule) :
    r ∈ load_replacements docs ↔
      (r ∈ docs.flatten ∧ r.original ≠ "" ∧ r.withText ≠ "") := by
  unfold load_replacements
  have hgen : ∀ acc, r ∈ docs.foldl (fun acc doc => doc.foldl keepRule acc) acc ↔
      r ∈ acc ∨ (r ∈ docs.flatten ∧ r.original ≠ "" ∧ r.withText ≠ "") := by
    induction docs with
    | nil =>
        intro acc
        simp
    | cons doc docs ih =>
        intro acc
        rw [List.foldl_cons, ih, mem_keepRule_foldl]
        rw [List.flatten_cons]
        constructor
        · intro h
          rcases h with (h | ⟨hmem, hr⟩) | ⟨hmem, hr⟩
          · exact Or.inl h
          · exact Or.inr ⟨List.mem_append_left _ hmem, hr⟩
          · exact Or.inr ⟨List.mem_append_right _ hmem, hr⟩
        · intro h
          rcases h with h | ⟨hmem, hr⟩
          · exact Or.inl (Or.inl h)
          · rcases List.mem_append.mp hmem with h2 | h2
            · exact Or.inl (Or.inr ⟨h2, hr⟩)
            · exact Or.inr ⟨h2, hr⟩
  rw [hgen []]
  simp
